import Mathlib

/-!
Verification of the CMU Pronouncing Dictionary loader (`cmudict_loader.py`).

The Python module is shallowly embedded: the in-memory index
`self.pronunciations : Dict[str, List[List[str]]]` (an insertion-ordered
dictionary) is modelled as an association list `Index`, Python strings as
Lean `String`, and each query method as a Lean function over `Index`.
Query methods are given in state-passing style `Index → args → result × Index`
so that the claim that queries never mutate the index is expressible; the
`defaultdict` hazard (direct indexing inserts an empty entry) is modelled by
`dd_getitem`, while `.get` / `in` / iteration are the non-inserting reads the
source actually uses.

Python's `str.lower`, `str.strip` and `str.split()` are modelled on the ASCII
range (letters `A`-`Z`, the whitespace characters space, tab, newline,
carriage return, vertical tab, form feed), which covers every string the
dictionary format produces.
-/

/-- ASCII lowercasing of one character, the model of what Python's
`str.lower` does on the dictionary's data: `A`-`Z` maps to `a`-`z`,
everything else is fixed. -/
def pyLowerChar (c : Char) : Char :=
  if h : 65 ≤ c.toNat ∧ c.toNat ≤ 90 then
    Char.ofNatAux (c.toNat + 32) (Or.inl (by omega))
  else c

/-- Model of Python `str.lower`. -/
def pyLower (s : String) : String :=
  ⟨s.data.map pyLowerChar⟩

/-- The whitespace characters recognised by Python's `str.strip` and
`str.split()` on ASCII data. -/
def isPySpace (c : Char) : Bool :=
  c == ' ' || c == '\t' || c == '\n' || c == '\r' || c == '\x0b' || c == '\x0c'

/-- Drop leading and trailing whitespace from a character list. -/
def pyStripChars (l : List Char) : List Char :=
  ((l.dropWhile isPySpace).reverse.dropWhile isPySpace).reverse

/-- Model of Python `str.strip()`. -/
def pyStrip (s : String) : String :=
  ⟨pyStripChars s.data⟩

/-- Accumulator-style splitter behind `pySplit`: `cur` holds the (reversed)
current word. -/
def splitAux : List Char → List Char → List (List Char)
  | [], cur => if cur = [] then [] else [cur.reverse]
  | c :: cs, cur =>
    if isPySpace c then
      if cur = [] then splitAux cs [] else cur.reverse :: splitAux cs []
    else splitAux cs (c :: cur)

/-- Model of Python `str.split()` (no argument): split on runs of
whitespace, never producing empty tokens. -/
def pySplit (s : String) : List String :=
  (splitAux s.data []).map (fun w => ⟨w⟩)

/-- Model of `line.split('#')[0]`: everything before the first `#`. -/
def decomment (s : String) : String :=
  ⟨s.data.takeWhile (fun c => c != '#')⟩

/-- Does the list end in a variant marker `(digits)` (at least one digit)?
This is exactly the set of strings the regex `\(\d+\)$` matches at the end. -/
def endsVariant (l : List Char) : Bool :=
  match l.reverse with
  | ')' :: rest =>
    (rest.takeWhile Char.isDigit ≠ [] : Bool) &&
      (match rest.dropWhile Char.isDigit with
       | '(' :: _ => true
       | _ => false)
  | _ => false

/-- Model of `re.sub(r'\(\d+\)$', '', word)`: remove one trailing
parenthesized all-digit suffix if present (the regex can match at most one
occurrence, the final one). -/
def stripVariant (s : String) : String :=
  match s.data.reverse with
  | ')' :: rest =>
    if rest.takeWhile Char.isDigit ≠ [] then
      match rest.dropWhile Char.isDigit with
      | '(' :: pre => ⟨pre.reverse⟩
      | _ => s
    else s
  | _ => s

/-- Model of `re.search(r"[012]", p)`: does the token contain a stress
digit anywhere? -/
def hasStress (t : String) : Bool :=
  t.data.any (fun c => c == '0' || c == '1' || c == '2')

/-- One pronunciation: a list of ARPAbet phoneme tokens. -/
abbrev Pron := List String

/-- The in-memory index `self.pronunciations`, an insertion-ordered map from
word keys to the list of stored pronunciations. -/
abbrev Index := List (String × List Pron)

/-- Association-list read, the model of Python `dict.get` (no insertion). -/
def alistGet {α : Type} : List (String × α) → String → Option α
  | [], _ => none
  | (k, v) :: rest, w => if k = w then some v else alistGet rest w

/-- Model of `self.pronunciations[word].append(phonemes)` during loading:
append to the existing key's list, or add a fresh key at the end. -/
def addPron (idx : Index) (k : String) (p : Pron) : Index :=
  match idx with
  | [] => [(k, [p])]
  | (k1, v) :: rest =>
    if k1 = k then (k1, v ++ [p]) :: rest else (k1, v) :: addPron rest k p

/-- Model of one iteration of the loader's line loop
(`CMUDict.load_dictionary`): strip comments and whitespace, skip empty or
short lines, lowercase the first token, remove its variant marker, and store
the remaining tokens as one pronunciation. -/
def processLine (idx : Index) (rawLine : String) : Index :=
  let line := pyStrip (decomment rawLine)
  if line = "" then idx
  else
    match pySplit line with
    | w :: p :: ps => addPron idx (stripVariant (pyLower w)) (p :: ps)
    | _ => idx

/-- Model of `CMUDict.load_dictionary`, as a function of the file's lines. -/
def load_dictionary (lines : List String) : Index :=
  lines.foldl processLine []

/-- Model of direct indexing `self.pronunciations[word]` on the
`defaultdict(list)`: a missing key is inserted with an empty list. -/
def dd_getitem (idx : Index) (k : String) : List Pron × Index :=
  match alistGet idx k with
  | some v => (v, idx)
  | none => ([], idx ++ [(k, [])])

/-- The static ARPAbet-to-IPA table `ARPA_TO_IPA` from the source, in its
source order. -/
def ARPA_TO_IPA : List (String × String) :=
  [("AA", "ɑ"), ("AE", "æ"), ("AH", "ʌ"), ("AO", "ɔ"), ("AW", "aʊ"),
   ("AY", "aɪ"), ("EH", "ɛ"), ("ER", "ɝ"), ("EY", "eɪ"), ("IH", "ɪ"),
   ("IY", "i"), ("OW", "oʊ"), ("OY", "ɔɪ"), ("UH", "ʊ"), ("UW", "u"),
   ("AX", "ə"), ("AXR", "ɚ"), ("IX", "ɨ"), ("EL", "l̩"), ("EM", "m̩"),
   ("EN", "n̩"), ("B", "b"), ("CH", "tʃ"), ("D", "d"), ("DH", "ð"),
   ("DX", "ɾ"), ("F", "f"), ("G", "ɡ"), ("HH", "h"), ("JH", "dʒ"),
   ("K", "k"), ("L", "l"), ("M", "m"), ("N", "n"), ("NG", "ŋ"),
   ("P", "p"), ("R", "ɹ"), ("S", "s"), ("SH", "ʃ"), ("T", "t"),
   ("TH", "θ"), ("V", "v"), ("W", "w"), ("Y", "j"), ("Z", "z"),
   ("ZH", "ʒ")]

/-- Model of `re.sub(r"\d", "", phoneme)`: delete every digit character. -/
def stripDigits (t : String) : String :=
  ⟨t.data.filter (fun c => !c.isDigit)⟩

/-- Model of `CMUDict.arpa_to_ipa`: the source builds `ipa_symbols` by a
loop that appends one translated symbol per phoneme, then joins with single
spaces and wraps in slashes. -/
def arpa_to_ipa (phonemes : Pron) : String :=
  let ipa_symbols := phonemes.foldl
    (fun acc p =>
      let base := stripDigits p
      acc ++ [match alistGet ARPA_TO_IPA base with
              | some ipa => ipa
              | none => pyLower base])
    []
  "/" ++ String.intercalate " " ipa_symbols ++ "/"

/-- Model of `CMUDict.count_syllables_in_pronunciation`: the number of
tokens containing a stress digit. -/
def count_syllables_in_pronunciation (phonemes : Pron) : Nat :=
  phonemes.countP hasStress

/-- Model of `CMUDict.get_rhyming_part_from_phonemes`: the source scans
indices from the last to the first and returns the suffix starting at the
first stressed token found; this recursion computes the same suffix (the
recursive call handles the part right of the head, which wins if it finds a
stressed token). -/
def get_rhyming_part_from_phonemes : Pron → Option (List String)
  | [] => none
  | p :: ps =>
    match get_rhyming_part_from_phonemes ps with
    | some r => some r
    | none => if hasStress p then some (p :: ps) else none

/-- The loop of `CMUDict.find_rhymes_by_phonemes` over the index entries:
`wl` is `word.lower()`, `rp` the query's rhyme key, `acc` the rhymes
collected so far, `seen` the already-collected keys.  An entry equal to `wl`
is skipped by `continue` (which also skips the loop's cap check); otherwise
a matching unseen key is appended and the loop stops once the cap is
reached. -/
def rhymesLoop (wl : String) (rp : List String) (maxr : Int) :
    Index → List String → List String → List String
  | [], acc, _ => acc
  | (ow, ops) :: rest, acc, seen =>
    if ow = wl then rhymesLoop wl rp maxr rest acc seen
    else
      let hit := ops.any (fun op => get_rhyming_part_from_phonemes op = some rp)
      let fresh := hit && !(seen.contains ow)
      let acc1 := if fresh then acc ++ [ow] else acc
      let seen1 := if fresh then ow :: seen else seen
      if maxr ≤ (acc1.length : Int) then acc1
      else rhymesLoop wl rp maxr rest acc1 seen1

/-- Model of `CMUDict.find_rhymes_by_phonemes`. -/
def find_rhymes_by_phonemes (idx : Index) (word : String) (phonemes : Pron)
    (maxr : Int) : List String :=
  match get_rhyming_part_from_phonemes phonemes with
  | none => []
  | some rp => rhymesLoop (pyLower word) rp maxr idx [] []

/-- The shared head of every single-word query:
`self.pronunciations.get(word.lower().strip())` followed by the
`if not pronunciations` falsiness test (`None` and the empty list both fail
it). -/
def getProns (idx : Index) (word : String) : Option (List Pron) :=
  match alistGet idx (pyStrip (pyLower word)) with
  | some (p :: ps) => some (p :: ps)
  | _ => none

/-- One record of `CMUDict.lookup`'s result list. -/
structure LookupEntry where
  arpa : String
  ipa : String
  syllables : Nat
  rhymes : List String
deriving DecidableEq

/-- Model of `CMUDict.lookup` (state-passing: the second component is the
index after the call).  The source normalizes `word` before the loop, so the
`rhymes` field is computed with the normalized word. -/
def lookup (idx : Index) (word : String) :
    Option (List LookupEntry) × Index :=
  let w := pyStrip (pyLower word)
  (match getProns idx word with
   | none => none
   | some prons =>
     some (prons.map (fun phonemes =>
       { arpa := String.intercalate " " phonemes
         ipa := arpa_to_ipa phonemes
         syllables := count_syllables_in_pronunciation phonemes
         rhymes := find_rhymes_by_phonemes idx w phonemes 10 })),
   idx)

/-- Model of `CMUDict.count_syllables`: first pronunciation only. -/
def count_syllables (idx : Index) (word : String) : Option Nat × Index :=
  (match getProns idx word with
   | some (p :: _) => some (count_syllables_in_pronunciation p)
   | _ => none,
   idx)

/-- Model of `CMUDict.get_rhyming_part`: first pronunciation only. -/
def get_rhyming_part (idx : Index) (word : String) : Option String × Index :=
  (match getProns idx word with
   | some (p :: _) =>
     match get_rhyming_part_from_phonemes p with
     | some rp => some (String.intercalate " " rp)
     | none => none
   | _ => none,
   idx)

/-- Model of `CMUDict.find_rhymes`: looks up the normalized word but passes
the original `word` on to `find_rhymes_by_phonemes`. -/
def find_rhymes (idx : Index) (word : String) (maxr : Int) :
    List String × Index :=
  (match getProns idx word with
   | some (p :: _) => find_rhymes_by_phonemes idx word p maxr
   | _ => [],
   idx)

/-- Model of `CMUDict.get_stress_pattern`: collect `p[-1]` for every token
whose last character is a stress digit, join with spaces.  A token produced
by the loader is never empty, so the `none` branch of `getLast?` (where
Python would raise on `p[-1]`) is unreachable on loaded indexes. -/
def get_stress_pattern (idx : Index) (word : String) : Option String × Index :=
  (match getProns idx word with
   | some (p :: _) =>
     some (String.intercalate " " (p.filterMap (fun t =>
       match t.data.getLast? with
       | some c => if c = '0' ∨ c = '1' ∨ c = '2' then some ⟨[c]⟩ else none
       | none => none)))
   | _ => none,
   idx)

/-- Model of `CMUDict.get_phonemes_readable`: first pronunciation joined
with spaces. -/
def get_phonemes_readable (idx : Index) (word : String) :
    Option String × Index :=
  (match getProns idx word with
   | some (p :: _) => some (String.intercalate " " p)
   | _ => none,
   idx)

/-- Model of `CMUDict.word_exists`: membership test on `word.lower()` (the
source does not strip here). -/
def word_exists (idx : Index) (word : String) : Bool × Index :=
  ((alistGet idx (pyLower word)).isSome, idx)

/-- Atoms of the regular-expression fragment that
`re.compile('^' + pattern.replace('*', '.*') + '$')` produces when the
input pattern contains only ordinary characters, `.` and `*`: a literal
character, `.` (any character except newline), and `.*` (any run of
non-newline characters). -/
inductive RAtom where
  | lit (c : Char)
  | dot
  | star
deriving DecidableEq

/-- Anchored matching of an atom sequence against a key, with the
case-insensitive comparison that `re.IGNORECASE` performs on ASCII
literals.  Anchoring at both ends models the `^`/`$` wrapping (index keys
never contain a newline, so `$` means end of string). -/
def reMatch : List RAtom → List Char → Bool
  | [], ks => ks.isEmpty
  | RAtom.lit _ :: _, [] => false
  | RAtom.lit c :: rs, k :: ks1 => (pyLowerChar c == pyLowerChar k) && reMatch rs ks1
  | RAtom.dot :: _, [] => false
  | RAtom.dot :: rs, k :: ks1 => (k != '\n') && reMatch rs ks1
  | RAtom.star :: rs, ks =>
    (List.range (ks.length + 1)).any (fun i =>
      (ks.take i).all (fun k => k != '\n') && reMatch rs (ks.drop i))

/-- The regex metacharacters of Python's `re` module. -/
def metachar (c : Char) : Bool :=
  c == '.' || c == '*' || c == '?' || c == '+' || c == '(' || c == ')' ||
  c == '[' || c == ']' || c == '{' || c == '}' || c == '\\' || c == '|' ||
  c == '^' || c == '$'

/-- Translation of the user pattern into the atom sequence of the compiled
regex `'^' + pattern.replace('*', '.*') + '$'`: the replacement turns every
`*` into `.*` (one `star` atom), a user `.` stays a regex `.`, and every
non-metacharacter is a literal.  Patterns using regex features outside the
embedded fragment (other metacharacters) are out of the model and map to
`none`. -/
def translateAux : List Char → Option (List RAtom)
  | [] => some []
  | c :: cs =>
    if c = '*' then (translateAux cs).map (fun rs => RAtom.star :: rs)
    else if c = '.' then (translateAux cs).map (fun rs => RAtom.dot :: rs)
    else if metachar c then none
    else (translateAux cs).map (fun rs => RAtom.lit c :: rs)

/-- The loop of `CMUDict.search_by_pattern` over the index keys: append
each matching key and stop once the cap is reached (the cap check runs only
after an append). -/
def searchLoop (rs : List RAtom) (maxr : Int) :
    Index → List String → List String
  | [], acc => acc
  | (w, _) :: rest, acc =>
    if reMatch rs w.data then
      let acc1 := acc ++ [w]
      if maxr ≤ (acc1.length : Int) then acc1 else searchLoop rs maxr rest acc1
    else searchLoop rs maxr rest acc

/-- Model of `CMUDict.search_by_pattern` (state-passing).  The result is
`none` only for patterns outside the embedded regex fragment. -/
def search_by_pattern (idx : Index) (pattern : String) (maxr : Int) :
    Option (List String) × Index :=
  ((translateAux pattern.data).map (fun rs => searchLoop rs maxr idx []),
   idx)

/-- The matching relation the specification describes for `search`:
the whole key is matched, `*` matches zero or more of any character, every
other pattern character is matched literally and case-insensitively.
Modelled from the spec's words, for comparison with `reMatch`. -/
def globMatch : List Char → List Char → Bool
  | [], ks => ks.isEmpty
  | p :: ps, ks =>
    if p = '*' then
      (List.range (ks.length + 1)).any (fun i => globMatch ps (ks.drop i))
    else
      match ks with
      | [] => false
      | k :: ks1 => (pyLowerChar p == pyLowerChar k) && globMatch ps ks1

/-- Well-formedness of an index: every stored pronunciation list is
non-empty and every stored token is a non-empty string. -/
def goodIdx (idx : Index) : Prop :=
  ∀ k ps, alistGet idx k = some ps →
    ps ≠ [] ∧ ∀ p ∈ ps, p ≠ [] ∧ ∀ t ∈ p, t ≠ ""

example : pyLower "CaT" = "cat" := by decide
example : pyStrip "  a b\t" = "a b" := by decide
example : pySplit " cat  K AE1 T " = ["cat", "K", "AE1", "T"] := by decide
example : decomment "abc # xyz" = "abc " := by decide
example : stripVariant "word(2)" = "word" := by decide
example : stripVariant "a(1)(2)" = "a(1)" := by decide
example : stripVariant "a()" = "a()" := by decide
example : endsVariant "a(1)".data = true := by decide
example : load_dictionary ["cat K AE1 T # test", "", "cat(2) K AE2 T"]
    = [("cat", [["K", "AE1", "T"], ["K", "AE2", "T"]])] := by decide

/-! ### Basic facts about the character-level primitives -/

theorem toNat_ofNatAux (n : Nat) (h : Nat.isValidChar n) :
    (Char.ofNatAux n h).toNat = n := rfl

theorem pyLowerChar_idem (c : Char) :
    pyLowerChar (pyLowerChar c) = pyLowerChar c := by
  by_cases h : 65 ≤ c.toNat ∧ c.toNat ≤ 90
  · have h1 : pyLowerChar c = Char.ofNatAux (c.toNat + 32) (Or.inl (by omega)) :=
      dif_pos h
    rw [h1]
    exact dif_neg (by rw [toNat_ofNatAux]; omega)
  · have h1 : pyLowerChar c = c := dif_neg h
    simp only [h1]

theorem map_id_of_mem {α : Type} {f : α → α} :
    ∀ l : List α, (∀ a ∈ l, f a = a) → l.map f = l
  | [], _ => rfl
  | a :: l, h => by
    simp only [List.map_cons, h a (by simp)]
    rw [map_id_of_mem l (fun b hb => h b (by simp [hb]))]

theorem pyLower_idem (s : String) : pyLower (pyLower s) = pyLower s := by
  simp only [pyLower, List.map_map]
  congr 1
  exact List.map_congr_left (fun c _ => pyLowerChar_idem c)

/-! ### Claim C1: the rhyme key -/

theorem rhyme_none_iff : ∀ ps : Pron,
    get_rhyming_part_from_phonemes ps = none ↔ ∀ p ∈ ps, hasStress p = false := by
  intro ps
  induction ps with
  | nil => simp [get_rhyming_part_from_phonemes]
  | cons p ps ih =>
    simp only [get_rhyming_part_from_phonemes]
    cases h : get_rhyming_part_from_phonemes ps with
    | some r =>
      simp only [List.mem_cons]
      constructor
      · intro hfalse; exact absurd hfalse (by simp)
      · intro hall
        have : get_rhyming_part_from_phonemes ps = none :=
          ih.mpr (fun q hq => hall q (Or.inr hq))
        rw [this] at h; exact absurd h (by simp)
    | none =>
      by_cases hp : hasStress p
      · simp only [if_pos hp]
        constructor
        · intro hfalse; exact absurd hfalse (by simp)
        · intro hall
          have := hall p (by simp)
          rw [hp] at this; exact absurd this (by simp)
      · simp only [if_neg hp, List.mem_cons]
        constructor
        · intro _ q hq
          rcases hq with hq | hq
          · subst hq; exact Bool.eq_false_iff.mpr hp
          · exact (ih.mp h) q hq
        · intro _; trivial

theorem rhyme_some_suffix : ∀ (ps : Pron) (r : List String),
    get_rhyming_part_from_phonemes ps = some r →
    ∃ pre x rest, r = x :: rest ∧ ps = pre ++ x :: rest ∧
      hasStress x = true ∧ ∀ q ∈ rest, hasStress q = false := by
  intro ps
  induction ps with
  | nil => intro r h; exact absurd h (by simp [get_rhyming_part_from_phonemes])
  | cons p ps ih =>
    intro r h
    simp only [get_rhyming_part_from_phonemes] at h
    cases hrec : get_rhyming_part_from_phonemes ps with
    | some r1 =>
      rw [hrec] at h
      obtain ⟨pre, x, rest, h1, h2, h3, h4⟩ := ih r1 hrec
      refine ⟨p :: pre, x, rest, ?_, ?_, h3, h4⟩
      · cases h; exact h1
      · simp [h2]
    | none =>
      rw [hrec] at h
      by_cases hp : hasStress p
      · rw [if_pos hp] at h
        refine ⟨[], p, ps, ?_, by simp, hp, ?_⟩
        · cases h; rfl
        · exact (rhyme_none_iff ps).mp hrec
      · rw [if_neg hp] at h
        exact absurd h (by simp)

/-- C1: for every pronunciation, `get_rhyming_part_from_phonemes` is `none`
exactly when no token contains one of the digits 0, 1, 2, and otherwise it
returns the contiguous suffix of the pronunciation starting at the rightmost
token containing such a digit (its head is stressed, every later token is
not, and the suffix runs to the end of the list). -/
theorem rhyming_part_rightmost_stress (ps : Pron) :
    (get_rhyming_part_from_phonemes ps = none ↔ ∀ p ∈ ps, hasStress p = false) ∧
    (∀ r, get_rhyming_part_from_phonemes ps = some r →
      ∃ pre x rest, r = x :: rest ∧ ps = pre ++ x :: rest ∧
        hasStress x = true ∧ ∀ q ∈ rest, hasStress q = false) :=
  ⟨rhyme_none_iff ps, fun r h => rhyme_some_suffix ps r h⟩

theorem rhyming_part_rightmost_stress_witness :
    (get_rhyming_part_from_phonemes ["HH", "AH0", "L", "OW1"] = none ↔
      ∀ p ∈ ["HH", "AH0", "L", "OW1"], hasStress p = false) ∧
    (∃ pre x rest, (["OW1"] : List String) = x :: rest ∧
      ["HH", "AH0", "L", "OW1"] = pre ++ x :: rest ∧
      hasStress x = true ∧ ∀ q ∈ rest, hasStress q = false) :=
  ⟨(rhyming_part_rightmost_stress ["HH", "AH0", "L", "OW1"]).1,
   (rhyming_part_rightmost_stress ["HH", "AH0", "L", "OW1"]).2 ["OW1"] (by decide)⟩

/-! ### Claim C9: the ARPAbet-to-IPA translation -/

theorem foldl_append_singleton {α β : Type} (f : α → β) :
    ∀ (l : List α) (acc : List β),
      l.foldl (fun a x => a ++ [f x]) acc = acc ++ l.map f := by
  intro l
  induction l with
  | nil => intro acc; simp
  | cons x l ih => intro acc; simp [ih]

theorem intercalate_singleton (x : String) :
    String.intercalate " " [x] = x := by
  simp [String.intercalate, String.intercalate.go]

/-- C9: `arpa_to_ipa` translates each token independently by deleting every
digit character, using the static table entry when one exists and the
lowercased base symbol otherwise; the translated symbols are joined with
single spaces and wrapped in slashes, and the translation is total (a token
whose base symbol is unknown falls back to its lowercase form rather than
failing). -/
theorem arpa_to_ipa_total_translation (phonemes : Pron) :
    arpa_to_ipa phonemes =
      "/" ++ String.intercalate " " (phonemes.map (fun p =>
        match alistGet ARPA_TO_IPA (stripDigits p) with
        | some ipa => ipa
        | none => pyLower (stripDigits p))) ++ "/" ∧
    (∀ t, alistGet ARPA_TO_IPA (stripDigits t) = none →
      arpa_to_ipa [t] = "/" ++ pyLower (stripDigits t) ++ "/") ∧
    (∀ t ipa, alistGet ARPA_TO_IPA (stripDigits t) = some ipa →
      arpa_to_ipa [t] = "/" ++ ipa ++ "/") := by
  have key : ∀ ps : Pron, arpa_to_ipa ps =
      "/" ++ String.intercalate " " (ps.map (fun p =>
        match alistGet ARPA_TO_IPA (stripDigits p) with
        | some ipa => ipa
        | none => pyLower (stripDigits p))) ++ "/" := by
    intro ps
    simp only [arpa_to_ipa]
    rw [foldl_append_singleton]
    simp
  refine ⟨key phonemes, ?_, ?_⟩
  · intro t ht
    rw [key [t]]
    simp only [List.map_cons, List.map_nil, ht, intercalate_singleton]
  · intro t ipa ht
    rw [key [t]]
    simp only [List.map_cons, List.map_nil, ht, intercalate_singleton]

theorem arpa_to_ipa_total_translation_witness :
    arpa_to_ipa ["QX9"] = "/" ++ pyLower (stripDigits "QX9") ++ "/" ∧
    arpa_to_ipa ["ZH0"] = "/" ++ "ʒ" ++ "/" :=
  ⟨(arpa_to_ipa_total_translation []).2.1 "QX9" (by decide),
   (arpa_to_ipa_total_translation []).2.2 "ZH0" "ʒ" (by decide)⟩

/-! ### Concrete counterexamples and failing-input evaluations -/

/-- C2 counterexample: with the single dictionary line `cat K AE1 T`,
querying `find_rhymes` with the whitespace-padded word `" cat "` returns the
queried word itself: the exclusion compares against `" cat ".lower()`, which
is not trimmed, so the claim that the normalized queried word never appears
in its own rhyme results is false. -/
theorem find_rhymes_includes_self_on_whitespace :
    (find_rhymes (load_dictionary ["cat K AE1 T"]) " cat " 10).1 = ["cat"] ∧
    pyStrip (pyLower " cat ") = "cat" := by decide

/-- C3 counterexample: `word_exists` does not trim its input, so querying
with surrounding whitespace differs from querying the lowercase-trimmed
form. -/
theorem word_exists_sensitive_to_whitespace :
    (word_exists (load_dictionary ["a AH0"]) " a ").1 = false ∧
    (word_exists (load_dictionary ["a AH0"]) (pyStrip (pyLower " a "))).1 = true := by
  decide

/-- C4 counterexample: the pattern `.` (no `*` at all) matches the key `a`
in `search_by_pattern`, while the literal interpretation the claim
describes (every non-`*` character matched literally) rejects it: `.` keeps
its regex meaning. -/
theorem dot_pattern_matches_any_char :
    (search_by_pattern (load_dictionary ["a AH0"]) "." 20).1 = some ["a"] ∧
    globMatch ".".data "a".data = false := by decide

/-- C5 failing input evaluated: with `max_results = 0` both `find_rhymes`
and `search_by_pattern` return one result, because the source checks the
cap only after appending a match. -/
theorem cap_exceeded_at_zero_max :
    (find_rhymes (load_dictionary ["bat B AE1 T", "cat K AE1 T"]) "cat" 0).1
      = ["bat"] ∧
    (search_by_pattern (load_dictionary ["a AH0"]) "a" 0).1 = some ["a"] := by
  decide

/-- C6 counterexample: a first token carrying two stacked variant markers,
as in the line `a(1)(2) F UW1`, loses only the final marker (the regex
`\(\d+\)$` can match just once), so the stored key `a(1)` still ends in a
parenthesized all-digit variant marker. -/
theorem variant_marker_survives_stacked :
    load_dictionary ["a(1)(2) F UW1"] = [("a(1)", [["F", "UW1"]])] ∧
    endsVariant "a(1)".data = true := by decide

/-- C8 counterexample: a token whose stress digit is not in final position
(`A1B`) counts as carrying stress, yet contributes nothing to the stress
pattern, because the source inspects only the token's last character; the
claim that every token containing a stress digit anywhere contributes one
digit is false. -/
theorem stress_pattern_ignores_inner_digit :
    (get_stress_pattern (load_dictionary ["x A1B"]) "x").1 = some "" ∧
    hasStress "A1B" = true := by decide

/-! ### Normalization facts: strip and lower are idempotent -/

theorem dropWhile_self {α : Type} (p : α → Bool) (l : List α) :
    (l.dropWhile p).dropWhile p = l.dropWhile p := by
  induction l with
  | nil => rfl
  | cons a l ih =>
    by_cases h : p a
    · simp [List.dropWhile_cons, h, ih]
    · simp [List.dropWhile_cons, h]

theorem exists_prepend_dropWhile {α : Type} (p : α → Bool) :
    ∀ l : List α, ∃ t, t ++ l.dropWhile p = l := by
  intro l
  induction l with
  | nil => exact ⟨[], rfl⟩
  | cons a l ih =>
    by_cases h : p a
    · obtain ⟨t, ht⟩ := ih
      exact ⟨a :: t, by simp [List.dropWhile_cons, h, ht]⟩
    · exact ⟨[], by simp [List.dropWhile_cons, h]⟩

theorem dropWhile_cons_of_neg {α : Type} (p : α → Bool) (a : α) (l : List α)
    (h : p a = false) : (a :: l).dropWhile p = a :: l := by
  simp [List.dropWhile_cons, h]

theorem length_dropWhile_le {α : Type} (p : α → Bool) :
    ∀ l : List α, (l.dropWhile p).length ≤ l.length := by
  intro l
  induction l with
  | nil => simp
  | cons a l ih =>
    by_cases h : p a
    · rw [List.dropWhile_cons, if_pos h]
      simp only [List.length_cons]
      omega
    · rw [List.dropWhile_cons, if_neg h]

theorem pyStripChars_idem (l : List Char) :
    pyStripChars (pyStripChars l) = pyStripChars l := by
  simp only [pyStripChars]
  have hA : (l.dropWhile isPySpace).dropWhile isPySpace = l.dropWhile isPySpace :=
    dropWhile_self _ _
  have hB : (((l.dropWhile isPySpace).reverse.dropWhile isPySpace).dropWhile
      isPySpace) = (l.dropWhile isPySpace).reverse.dropWhile isPySpace :=
    dropWhile_self _ _
  -- `R` is the final stripped list; its head is a head of `dropWhile`, hence
  -- not whitespace, so the leading strip of `R` is the identity.
  have hR : (((l.dropWhile isPySpace).reverse.dropWhile isPySpace).reverse).dropWhile
      isPySpace = ((l.dropWhile isPySpace).reverse.dropWhile isPySpace).reverse := by
    obtain ⟨t, ht⟩ := exists_prepend_dropWhile isPySpace (l.dropWhile isPySpace).reverse
    cases hc : ((l.dropWhile isPySpace).reverse.dropWhile isPySpace).reverse with
    | nil => simp [hc]
    | cons r R1 =>
      -- the original leading strip starts with `r` as well
      have hAform : l.dropWhile isPySpace = r :: (R1 ++ t.reverse) := by
        have := congrArg List.reverse ht
        simp only [List.reverse_append, List.reverse_reverse] at this
        rw [← this]
        have := congrArg (fun x => x ++ t.reverse) hc
        simpa using this
      have hr : isPySpace r = false := by
        by_cases hpr : isPySpace r
        · exfalso
          have h1 := hA
          rw [hAform] at h1
          rw [List.dropWhile_cons, if_pos hpr] at h1
          have h2 := congrArg List.length h1
          have h3 := length_dropWhile_le isPySpace (R1 ++ t.reverse)
          rw [List.length_cons] at h2
          omega
        · exact Bool.eq_false_iff.mpr hpr
      exact dropWhile_cons_of_neg _ _ _ hr
  rw [hR]
  rw [List.reverse_reverse, hB]

theorem pyStrip_idem (s : String) : pyStrip (pyStrip s) = pyStrip s := by
  show String.mk (pyStripChars (pyStripChars s.data)) = String.mk (pyStripChars s.data)
  exact congrArg _ (pyStripChars_idem s.data)

theorem mem_of_mem_dropWhile {α : Type} (p : α → Bool) (l : List α) (a : α)
    (h : a ∈ l.dropWhile p) : a ∈ l := by
  obtain ⟨t, ht⟩ := exists_prepend_dropWhile p l
  rw [← ht]
  exact List.mem_append_right t h

theorem mem_of_mem_pyStripChars (l : List Char) (a : Char)
    (h : a ∈ pyStripChars l) : a ∈ l := by
  simp only [pyStripChars, List.mem_reverse] at h
  have h1 := mem_of_mem_dropWhile _ _ _ h
  rw [List.mem_reverse] at h1
  exact mem_of_mem_dropWhile _ _ _ h1

theorem pyLower_pyStrip_pyLower (s : String) :
    pyLower (pyStrip (pyLower s)) = pyStrip (pyLower s) := by
  show String.mk ((pyStripChars (s.data.map pyLowerChar)).map pyLowerChar)
      = String.mk (pyStripChars (s.data.map pyLowerChar))
  congr 1
  apply map_id_of_mem
  intro a ha
  have h1 : a ∈ s.data.map pyLowerChar := mem_of_mem_pyStripChars _ _ ha
  obtain ⟨c, _, hc⟩ := List.mem_map.mp h1
  rw [← hc]
  exact pyLowerChar_idem c

theorem normKey_idem (s : String) :
    pyStrip (pyLower (pyStrip (pyLower s))) = pyStrip (pyLower s) := by
  rw [pyLower_pyStrip_pyLower, pyStrip_idem]

/-- C3 amended: `lookup`, `count_syllables`, `get_stress_pattern`,
`get_rhyming_part` and `get_phonemes_readable` normalize their input by
lowercasing and trimming, so querying any letter case with any surrounding
whitespace equals querying the lowercase-trimmed form; `word_exists`
normalizes only by lowercasing (no trim), so it is invariant under letter
case but not under surrounding whitespace. -/
theorem queries_normalize_lower_strip (idx : Index) (w : String) :
    (lookup idx w).1 = (lookup idx (pyStrip (pyLower w))).1 ∧
    (count_syllables idx w).1 = (count_syllables idx (pyStrip (pyLower w))).1 ∧
    (get_stress_pattern idx w).1 = (get_stress_pattern idx (pyStrip (pyLower w))).1 ∧
    (get_rhyming_part idx w).1 = (get_rhyming_part idx (pyStrip (pyLower w))).1 ∧
    (get_phonemes_readable idx w).1
      = (get_phonemes_readable idx (pyStrip (pyLower w))).1 ∧
    (word_exists idx w).1 = (word_exists idx (pyLower w)).1 := by
  have hN := normKey_idem w
  have hL := pyLower_idem w
  refine ⟨?_, ?_, ?_, ?_, ?_, ?_⟩ <;>
    simp only [lookup, count_syllables, get_stress_pattern, get_rhyming_part,
      get_phonemes_readable, word_exists, getProns, hN, hL]

/-! ### Claim C2: self-exclusion in rhyme search -/

theorem rhymesLoop_not_self (wl : String) (rp : List String) (maxr : Int) :
    ∀ (entries : Index) (acc seen : List String), wl ∉ acc →
      wl ∉ rhymesLoop wl rp maxr entries acc seen := by
  intro entries
  induction entries with
  | nil => intro acc seen h; simpa [rhymesLoop] using h
  | cons e rest ih =>
    intro acc seen h
    obtain ⟨ow, ops⟩ := e
    simp only [rhymesLoop]
    by_cases how : ow = wl
    · rw [if_pos how]; exact ih acc seen h
    · rw [if_neg how]
      have hnot : wl ∉ acc ++ [ow] := by
        intro hmem
        rcases List.mem_append.mp hmem with hm | hm
        · exact h hm
        · rw [List.mem_singleton] at hm
          exact how hm.symm
      split
      · split
        · exact hnot
        · exact ih _ _ hnot
      · split
        · exact h
        · exact ih _ _ h

/-- C2 amended: the self-exclusion in rhyme search compares index keys to
the lowercased (but not trimmed) queried word, so the lowercased form of
the queried word never appears in `find_rhymes_by_phonemes` results, and
whenever the input carries no surrounding whitespace (its lowercased form
is already trimmed) the normalized queried word never appears in
`find_rhymes` results; with surrounding whitespace the queried word can
appear in its own results. -/
theorem find_rhymes_excludes_lowercased_word (idx : Index) (w : String)
    (ps : Pron) (maxr : Int) :
    pyLower w ∉ find_rhymes_by_phonemes idx w ps maxr ∧
    (pyStrip (pyLower w) = pyLower w →
      pyStrip (pyLower w) ∉ (find_rhymes idx w maxr).1) := by
  have key : ∀ q : Pron, pyLower w ∉ find_rhymes_by_phonemes idx w q maxr := by
    intro q
    simp only [find_rhymes_by_phonemes]
    cases hr : get_rhyming_part_from_phonemes q with
    | none => simp
    | some rp => exact rhymesLoop_not_self (pyLower w) rp maxr idx [] [] (by simp)
  refine ⟨key ps, fun hst => ?_⟩
  rw [hst]
  simp only [find_rhymes]
  cases hp : getProns idx w with
  | none => simp
  | some l =>
    cases l with
    | nil => simp
    | cons p rest => simpa using key p

theorem find_rhymes_excludes_lowercased_word_witness :
    pyLower "cat" ∉ find_rhymes_by_phonemes
      (load_dictionary ["cat K AE1 T", "bat B AE1 T"]) "cat" ["K", "AE1", "T"] 10 ∧
    pyStrip (pyLower "cat") ∉
      (find_rhymes (load_dictionary ["cat K AE1 T", "bat B AE1 T"]) "cat" 10).1 :=
  ⟨(find_rhymes_excludes_lowercased_word
      (load_dictionary ["cat K AE1 T", "bat B AE1 T"]) "cat" ["K", "AE1", "T"] 10).1,
   (find_rhymes_excludes_lowercased_word
      (load_dictionary ["cat K AE1 T", "bat B AE1 T"]) "cat" ["K", "AE1", "T"] 10).2
     (by decide)⟩

/-! ### The loaded index is well-formed -/

theorem alistGet_addPron_self (idx : Index) (k : String) (p : Pron) :
    alistGet (addPron idx k p) k = some (((alistGet idx k).getD []) ++ [p]) := by
  induction idx with
  | nil => simp [addPron, alistGet]
  | cons e rest ih =>
    obtain ⟨k1, v⟩ := e
    by_cases h : k1 = k
    · subst h
      simp [addPron, alistGet]
    · simp [addPron, alistGet, h, ih]

theorem alistGet_addPron_ne (idx : Index) (k : String) (p : Pron) (k1 : String)
    (h : k1 ≠ k) : alistGet (addPron idx k p) k1 = alistGet idx k1 := by
  induction idx with
  | nil =>
    simp only [addPron, alistGet]
    rw [if_neg (fun hh => h hh.symm)]
  | cons e rest ih =>
    obtain ⟨k2, v⟩ := e
    by_cases h2 : k2 = k
    · subst h2
      simp only [addPron, if_pos rfl, alistGet]
      rw [if_neg (fun hh => h hh.symm), if_neg (fun hh => h hh.symm)]
    · simp only [addPron, if_neg h2, alistGet]
      by_cases h3 : k2 = k1
      · rw [if_pos h3, if_pos h3]
      · rw [if_neg h3, if_neg h3, ih]

theorem splitAux_ne_nil :
    ∀ (l cur : List Char), ∀ w ∈ splitAux l cur, w ≠ [] := by
  intro l
  induction l with
  | nil =>
    intro cur w hw
    simp only [splitAux] at hw
    by_cases hc : cur = []
    · rw [if_pos hc] at hw
      exact absurd hw (by simp)
    · rw [if_neg hc] at hw
      rw [List.mem_singleton] at hw
      subst hw
      simpa using hc
  | cons c cs ih =>
    intro cur w hw
    simp only [splitAux] at hw
    by_cases hsp : isPySpace c
    · rw [if_pos hsp] at hw
      by_cases hc : cur = []
      · rw [if_pos hc] at hw
        exact ih [] w hw
      · rw [if_neg hc] at hw
        rcases List.mem_cons.mp hw with hw | hw
        · subst hw; simpa using hc
        · exact ih [] w hw
    · rw [if_neg hsp] at hw
      exact ih (c :: cur) w hw

theorem pySplit_ne_empty (s : String) : ∀ w ∈ pySplit s, w ≠ "" := by
  intro w hw
  obtain ⟨wl, hwl, hmk⟩ := List.mem_map.mp hw
  subst hmk
  intro he
  exact splitAux_ne_nil s.data [] wl hwl (congrArg String.data he)

theorem addPron_good (idx : Index) (k : String) (pr : Pron)
    (hidx : goodIdx idx) (hpr1 : pr ≠ []) (hpr2 : ∀ t ∈ pr, t ≠ "") :
    goodIdx (addPron idx k pr) := by
  intro k1 ps hps
  by_cases h : k1 = k
  · subst h
    rw [alistGet_addPron_self] at hps
    have hps1 : ps = ((alistGet idx k1).getD []) ++ [pr] := by
      cases hps; rfl
    subst hps1
    refine ⟨by simp, ?_⟩
    intro p hp
    rcases List.mem_append.mp hp with hp | hp
    · cases halist : alistGet idx k1 with
      | none => rw [halist] at hp; exact absurd hp (by simp)
      | some v =>
        rw [halist] at hp
        exact (hidx k1 v halist).2 p hp
    · rw [List.mem_singleton] at hp
      subst hp
      exact ⟨hpr1, hpr2⟩
  · rw [alistGet_addPron_ne _ _ _ _ h] at hps
    exact hidx k1 ps hps

theorem processLine_good (idx : Index) (line : String) (h : goodIdx idx) :
    goodIdx (processLine idx line) := by
  simp only [processLine]
  by_cases he : pyStrip (decomment line) = ""
  · rw [if_pos he]; exact h
  · rw [if_neg he]
    cases hs : pySplit (pyStrip (decomment line)) with
    | nil => exact h
    | cons w ps1 =>
      cases ps1 with
      | nil => exact h
      | cons p ps =>
        apply addPron_good _ _ _ h (by simp)
        intro t ht
        apply pySplit_ne_empty (pyStrip (decomment line))
        rw [hs]
        exact List.mem_cons_of_mem w ht

theorem load_foldl_good :
    ∀ (lines : List String) (idx : Index), goodIdx idx →
      goodIdx (lines.foldl processLine idx) := by
  intro lines
  induction lines with
  | nil => intro idx h; exact h
  | cons line rest ih =>
    intro idx h
    exact ih _ (processLine_good idx line h)

theorem load_dictionary_good (lines : List String) :
    goodIdx (load_dictionary lines) :=
  load_foldl_good lines []
    (fun k ps h => absurd h (by simp [alistGet]))

/-! ### Claim C7: syllable counting on the first pronunciation -/

/-- C7: over any loaded dictionary, `count_syllables` is absent exactly
when the normalized word is not in the index, and for a present word it is
the number of tokens of the first-listed pronunciation that contain a
stress digit; like `get_stress_pattern` and `get_rhyming_part`, it depends
only on that first-listed pronunciation (the result equals the result over
an index storing just that one pronunciation). -/
theorem count_syllables_first_pronunciation (lines : List String) (w : String) :
    ((count_syllables (load_dictionary lines) w).1 = none ↔
      alistGet (load_dictionary lines) (pyStrip (pyLower w)) = none) ∧
    (∀ p rest,
      alistGet (load_dictionary lines) (pyStrip (pyLower w)) = some (p :: rest) →
      (count_syllables (load_dictionary lines) w).1
        = some ((p.filter hasStress).length) ∧
      (get_stress_pattern (load_dictionary lines) w).1
        = (get_stress_pattern [(pyStrip (pyLower w), [p])] w).1 ∧
      (get_rhyming_part (load_dictionary lines) w).1
        = (get_rhyming_part [(pyStrip (pyLower w), [p])] w).1) := by
  constructor
  · constructor
    · intro hnone
      cases hget : alistGet (load_dictionary lines) (pyStrip (pyLower w)) with
      | none => rfl
      | some ps =>
        exfalso
        have hps := (load_dictionary_good lines _ ps hget).1
        cases ps with
        | nil => exact hps rfl
        | cons p rest => simp [count_syllables, getProns, hget] at hnone
    · intro hget
      simp [count_syllables, getProns, hget]
  · intro p rest hps
    refine ⟨?_, ?_, ?_⟩
    · simp [count_syllables, getProns, hps, count_syllables_in_pronunciation,
        List.countP_eq_length_filter]
    · simp [get_stress_pattern, getProns, hps, alistGet]
    · simp [get_rhyming_part, getProns, hps, alistGet]

theorem count_syllables_first_pronunciation_witness :
    ((count_syllables (load_dictionary ["hello HH AH0 L OW1", "hello(2) HH EH0 L OW1"]) " Hello").1
      = some (((["HH", "AH0", "L", "OW1"] : Pron).filter hasStress).length)) ∧
    (count_syllables (load_dictionary ["hello HH AH0 L OW1", "hello(2) HH EH0 L OW1"]) " Hello").1
      = some 2 := by
  have h := ((count_syllables_first_pronunciation
    ["hello HH AH0 L OW1", "hello(2) HH EH0 L OW1"] " Hello").2
      ["HH", "AH0", "L", "OW1"] [["HH", "EH0", "L", "OW1"]] (by decide)).1
  exact ⟨h, by rw [h]; decide⟩

/-! ### Claim C10: queries leave the index unchanged; stored data is sound -/

/-- C10: every query operation returns the index unchanged (the source
reads the map only through `.get`, membership and iteration, never through
the inserting direct indexing of the `defaultdict`, whose effect
`dd_getitem` exhibits), and every pronunciation list stored by the loader
is non-empty with non-empty tokens, so taking a token's last character in
`get_stress_pattern` is always well-defined on loaded data. -/
theorem queries_preserve_index :
    (∀ (idx : Index) (w : String), (lookup idx w).2 = idx) ∧
    (∀ (idx : Index) (w : String), (count_syllables idx w).2 = idx) ∧
    (∀ (idx : Index) (w : String), (get_rhyming_part idx w).2 = idx) ∧
    (∀ (idx : Index) (w : String) (m : Int), (find_rhymes idx w m).2 = idx) ∧
    (∀ (idx : Index) (w : String), (get_stress_pattern idx w).2 = idx) ∧
    (∀ (idx : Index) (w : String), (get_phonemes_readable idx w).2 = idx) ∧
    (∀ (idx : Index) (w : String), (word_exists idx w).2 = idx) ∧
    (∀ (idx : Index) (pat : String) (m : Int),
      (search_by_pattern idx pat m).2 = idx) ∧
    (∀ (idx : Index) (k : String), alistGet idx k = none →
      (dd_getitem idx k).2 ≠ idx) ∧
    (∀ (lines : List String) (k : String) (ps : List Pron),
      alistGet (load_dictionary lines) k = some ps →
      ps ≠ [] ∧ ∀ p ∈ ps, p ≠ [] ∧ ∀ t ∈ p, t ≠ "") := by
  refine ⟨fun _ _ => rfl, fun _ _ => rfl, fun _ _ => rfl, fun _ _ _ => rfl,
    fun _ _ => rfl, fun _ _ => rfl, fun _ _ => rfl, fun _ _ _ => rfl, ?_, ?_⟩
  · intro idx k h
    simp only [dd_getitem, h]
    intro he
    have hlen := congrArg List.length he
    simp at hlen
  · intro lines k ps h
    exact load_dictionary_good lines k ps h

theorem queries_preserve_index_witness :
    (dd_getitem ([] : Index) "a").2 ≠ ([] : Index) ∧
    ((([["AH0"]] : List Pron) ≠ []) ∧
      ∀ p ∈ ([["AH0"]] : List Pron), p ≠ [] ∧ ∀ t ∈ p, t ≠ "") :=
  ⟨queries_preserve_index.2.2.2.2.2.2.2.2.1 [] "a" rfl,
   queries_preserve_index.2.2.2.2.2.2.2.2.2 ["a AH0"] "a" [["AH0"]] (by decide)⟩

/-! ### Claim C6: line parsing in the loader -/

theorem takeWhile_all {α : Type} (p : α → Bool) :
    ∀ l : List α, (∀ a ∈ l, p a = true) → l.takeWhile p = l := by
  intro l
  induction l with
  | nil => intro _; rfl
  | cons a l ih =>
    intro h
    rw [List.takeWhile_cons, if_pos (h a (by simp))]
    rw [ih (fun b hb => h b (by simp [hb]))]

theorem takeWhile_append_all {α : Type} (p : α → Bool) :
    ∀ (l1 l2 : List α), (∀ a ∈ l1, p a = true) →
      (l1 ++ l2).takeWhile p = l1 ++ l2.takeWhile p := by
  intro l1
  induction l1 with
  | nil => intro l2 _; rfl
  | cons a l1 ih =>
    intro l2 h
    rw [List.cons_append, List.takeWhile_cons, if_pos (h a (by simp))]
    rw [ih l2 (fun b hb => h b (by simp [hb])), List.cons_append]

theorem decomment_before_hash (pre post : String) (h : '#' ∉ pre.data) :
    decomment (pre ++ "#" ++ post) = decomment pre := by
  have hall : ∀ a ∈ pre.data, (a != '#') = true := by
    intro a ha
    have hne : a ≠ '#' := fun he => h (he ▸ ha)
    simpa using hne
  have hdata : ("#" : String).data = ['#'] := rfl
  simp only [decomment, String.data_append, hdata, List.append_assoc,
    List.singleton_append]
  congr 1
  rw [takeWhile_append_all _ _ _ hall, takeWhile_all _ _ hall]
  rw [List.takeWhile_cons]
  simp

/-- C6 amended: the loader removes everything from the first `#` onward,
trims whitespace, skips lines that end up empty or with fewer than two
whitespace tokens, and otherwise stores the remaining tokens (in original
order and case) as one pronunciation appended to the list of the key
obtained by lowercasing the first token and removing ONE trailing
parenthesized all-digit variant suffix; every other key's entry is
untouched.  (A key can still end in a variant marker when the original
token stacked several, so the claim's final consequence fails.) -/
theorem loader_line_processing :
    (∀ (idx : Index) (pre post : String), '#' ∉ pre.data →
      processLine idx (pre ++ "#" ++ post) = processLine idx pre) ∧
    (∀ (idx : Index) (line : String),
      (pySplit (pyStrip (decomment line))).length < 2 →
      processLine idx line = idx) ∧
    (∀ (idx : Index) (line w p : String) (ps : List String),
      pySplit (pyStrip (decomment line)) = w :: p :: ps →
      alistGet (processLine idx line) (stripVariant (pyLower w))
        = some (((alistGet idx (stripVariant (pyLower w))).getD []) ++ [p :: ps]) ∧
      (∀ k, k ≠ stripVariant (pyLower w) →
        alistGet (processLine idx line) k = alistGet idx k)) := by
  refine ⟨?_, ?_, ?_⟩
  · intro idx pre post h
    simp only [processLine, decomment_before_hash pre post h]
  · intro idx line h
    simp only [processLine]
    by_cases he : pyStrip (decomment line) = ""
    · rw [if_pos he]
    · rw [if_neg he]
      cases hs : pySplit (pyStrip (decomment line)) with
      | nil => rfl
      | cons w ps1 =>
        cases ps1 with
        | nil => rfl
        | cons p ps =>
          rw [hs] at h
          exact absurd h (by simp)
  · intro idx line w p ps hs
    have hne : pyStrip (decomment line) ≠ "" := by
      intro he
      rw [he] at hs
      have : pySplit "" = [] := rfl
      rw [this] at hs
      exact absurd hs (by simp)
    have hstep : processLine idx line = addPron idx (stripVariant (pyLower w)) (p :: ps) := by
      simp only [processLine, if_neg hne, hs]
    rw [hstep]
    exact ⟨alistGet_addPron_self idx _ _,
      fun k hk => alistGet_addPron_ne idx _ _ k hk⟩

theorem loader_line_processing_witness :
    processLine [] "cat K AE1 T # comment" = processLine [] "cat K AE1 T " ∧
    processLine [] "   " = ([] : Index) ∧
    alistGet (processLine [] "DOG(2) D AO1 G") (stripVariant (pyLower "DOG(2)"))
      = some (((alistGet ([] : Index) (stripVariant (pyLower "DOG(2)"))).getD [])
          ++ [["D", "AO1", "G"]]) :=
  ⟨loader_line_processing.1 [] "cat K AE1 T " "comment" (by decide),
   loader_line_processing.2.1 [] "   " (by decide),
   (loader_line_processing.2.2 [] "DOG(2) D AO1 G" "DOG(2)" "D" ["AO1", "G"]
     (by decide)).1⟩

/-! ### Claim C8: the stress pattern -/

theorem stress_filterMap_eq (p : Pron) :
    p.filterMap (fun t =>
      match t.data.getLast? with
      | some c => if c = '0' ∨ c = '1' ∨ c = '2' then some (String.mk [c]) else none
      | none => none)
    = (p.filter (fun t => (t.data.getLast? == some '0')
        || (t.data.getLast? == some '1') || (t.data.getLast? == some '2'))).map
      (fun t => String.mk t.data.getLast?.toList) := by
  induction p with
  | nil => rfl
  | cons t ts ih =>
    rw [List.filterMap_cons, List.filter_cons]
    cases h : t.data.getLast? with
    | none => simp [h, ih]
    | some c =>
      by_cases hc : c = '0' ∨ c = '1' ∨ c = '2'
      · have hcb : ((some c == some '0') || (some c == some '1')
            || (some c == some '2')) = true := by
          rcases hc with hc | hc | hc <;> subst hc <;> rfl
        simp [h, hc, hcb, ih, or_assoc]
      · have h0 : c ≠ '0' := fun he => hc (Or.inl he)
        have h1 : c ≠ '1' := fun he => hc (Or.inr (Or.inl he))
        have h2 : c ≠ '2' := fun he => hc (Or.inr (Or.inr he))
        simp [h, hc, h0, h1, h2, ih, or_assoc]

/-- C8 amended: for a word present in a loaded index, the stress pattern is
the space-joined sequence of the last characters of exactly those tokens of
the first-listed pronunciation whose LAST character is a stress digit, in
token order; a token whose stress digit appears only in a non-final
position contributes nothing (such tokens do not occur in the real
dictionary, where a stress digit is always token-final). -/
theorem stress_pattern_trailing_digit_tokens (lines : List String) (w : String)
    (p : Pron) (rest : List Pron)
    (h : alistGet (load_dictionary lines) (pyStrip (pyLower w)) = some (p :: rest)) :
    (get_stress_pattern (load_dictionary lines) w).1 =
      some (String.intercalate " "
        ((p.filter (fun t => (t.data.getLast? == some '0')
            || (t.data.getLast? == some '1') || (t.data.getLast? == some '2'))).map
          (fun t => String.mk t.data.getLast?.toList))) := by
  simp only [get_stress_pattern, getProns, h]
  rw [stress_filterMap_eq]

theorem stress_pattern_trailing_digit_tokens_witness :
    (get_stress_pattern (load_dictionary ["x AH1 B0 CX"]) "x").1 = some "1 0" := by
  have h := stress_pattern_trailing_digit_tokens ["x AH1 B0 CX"] "x"
    ["AH1", "B0", "CX"] [] (by decide)
  rw [h]
  decide

/-! ### Claim C4: pattern search semantics -/

theorem list_any_congr {α : Type} (f g : α → Bool) :
    ∀ l : List α, (∀ a ∈ l, f a = g a) → l.any f = l.any g := by
  intro l
  induction l with
  | nil => intro _; rfl
  | cons a l ih =>
    intro h
    rw [List.any_cons, List.any_cons, h a (by simp),
      ih (fun b hb => h b (by simp [hb]))]

/-- C4 amended: `search_by_pattern` interprets the pattern as the regex
obtained by replacing `*` with `.*`, so regex metacharacters such as `.`,
`?`, `+`, `[` retain their regex power.  For a pattern containing no regex
metacharacter other than `*`, the compiled matcher coincides with the
literal wildcard interpretation the spec describes (case-insensitive,
anchored at both ends, `*` matching any run of characters); in particular,
over a one-entry index such a pattern selects the key exactly when the
literal interpretation accepts it. -/
theorem search_pattern_literal_on_plain_patterns :
    (∀ pat : List Char, (∀ c ∈ pat, metachar c = false ∨ c = '*') →
      ∃ rs, translateAux pat = some rs ∧
        ∀ ks : List Char, '\n' ∉ ks → reMatch rs ks = globMatch pat ks) ∧
    (∀ (pattern key : String) (prons : List Pron),
      (∀ c ∈ pattern.data, metachar c = false ∨ c = '*') → '\n' ∉ key.data →
      (search_by_pattern [(key, prons)] pattern 20).1 =
        some (if globMatch pattern.data key.data then [key] else [])) := by
  have main : ∀ pat : List Char, (∀ c ∈ pat, metachar c = false ∨ c = '*') →
      ∃ rs, translateAux pat = some rs ∧
        ∀ ks : List Char, '\n' ∉ ks → reMatch rs ks = globMatch pat ks := by
    intro pat
    induction pat with
    | nil =>
      intro _
      exact ⟨[], rfl, fun ks _ => rfl⟩
    | cons c cs ih =>
      intro hall
      have hcs : ∀ a ∈ cs, metachar a = false ∨ a = '*' :=
        fun a ha => hall a (by simp [ha])
      obtain ⟨rs1, ht1, heq1⟩ := ih hcs
      by_cases hstar : c = '*'
      · subst hstar
        refine ⟨RAtom.star :: rs1, by simp [translateAux, ht1], ?_⟩
        intro ks hn
        simp only [reMatch, globMatch, if_pos rfl]
        apply list_any_congr
        intro i _
        have htake : ((ks.take i).all (fun k => k != '\n')) = true := by
          rw [List.all_eq_true]
          intro k hk
          have hmem : k ∈ ks := List.take_subset i ks hk
          have hk2 : k ≠ '\n' := by
            intro he
            exact hn (he ▸ hmem)
          simpa using hk2
        rw [htake, Bool.true_and]
        exact heq1 (ks.drop i) (fun hmem => hn (List.drop_subset i ks hmem))
      · have hm : metachar c = false := by
          rcases hall c (by simp) with h | h
          · exact h
          · exact absurd h hstar
        have hdot : c ≠ '.' := by
          intro he
          rw [he] at hm
          exact absurd hm (by decide)
        refine ⟨RAtom.lit c :: rs1, ?_, ?_⟩
        · simp only [translateAux, if_neg hstar, if_neg hdot]
          rw [if_neg (by simp [hm]), ht1, Option.map_some']
        · intro ks hn
          cases ks with
          | nil => simp only [reMatch, globMatch, if_neg hstar]
          | cons k ks1 =>
            simp only [reMatch, globMatch, if_neg hstar]
            rw [heq1 ks1 (fun hmem => hn (by simp [hmem]))]
  refine ⟨main, ?_⟩
  intro pattern key prons hall hn
  obtain ⟨rs, ht, heq⟩ := main pattern.data hall
  simp only [search_by_pattern, ht, Option.map_some']
  congr 1
  simp only [searchLoop]
  rw [heq key.data hn]
  by_cases hg : globMatch pattern.data key.data
  · rw [if_pos hg, if_pos hg]
    have hlen : ¬((20 : Int) ≤ (((([] : List String) ++ [key]).length : Nat) : Int)) := by
      simp
    rw [if_neg hlen]
    simp [searchLoop]
  · rw [if_neg hg, if_neg hg]

theorem search_pattern_literal_on_plain_patterns_witness :
    (search_by_pattern [("cat", [["K", "AE1", "T"]])] "C*T" 20).1
      = some (if globMatch "C*T".data "cat".data then ["cat"] else []) :=
  search_pattern_literal_on_plain_patterns.2 "C*T" "cat" [["K", "AE1", "T"]]
    (by decide) (by decide)
